import Mathlib

/-!
Verification of the optimistic (lazy) marked linked list from
`concurrent-linked-list.cpp` / `concurrent-linked-list.hpp`.

The C++ program is a sorted singly-linked multiset of `int` keys with a
sentinel head node (value `-1`), per-node `removed` marking, a retire list
of physically-unlinked nodes, and a hazard-pointer table
`accessedPointers[MAX_THREADS][ACCESSED_PTRS_PER_THREAD]` consulted by
`scanAndReclaim`.

The embedding below gives the sequential (single-worker-at-a-time)
semantics of the operations.  Heap nodes are identified by an allocation
id (standing in for the node's address); the reachable chain after the
sentinel is a `List Node`; the hazard table is a list of rows of optional
node ids.  Where the C++ `while (true)` retry loop would spin forever in
a sequential run (validation failing with the state unchanged), the
embedded operation returns `none`.  The order of hazard publications and
node dereferences inside an unlocked traversal is modelled separately as
an event trace.
-/

namespace MarkedList

/-- `#define MAX_THREADS 8` from the header. -/
def MAX_THREADS : Nat := 8

/-- `#define ACCESSED_PTRS_PER_THREAD 2` from the header. -/
def ACCESSED_PTRS_PER_THREAD : Nat := 2

/-- One heap node: `value`, the logical-deletion flag `removed`, and an
allocation id standing in for the node's address (the `next` pointer of
the C++ struct is represented by adjacency in the chain list). -/
structure Node where
  id : Nat
  value : Int
  removed : Bool
deriving Repr, DecidableEq

/-- The hazard table: `MAX_THREADS` rows of `ACCESSED_PTRS_PER_THREAD`
slots, each `none` (null) or `some nodeId`. -/
abbrev HazardTable := List (List (Option Nat))

/-- The state of a `MarkedList` object: the chain of reachable nodes after
the sentinel (in `next` order), the retire list, the two atomic counters,
the hazard table, and the allocation counter supplying fresh node ids. -/
structure MList where
  chain : List Node
  retireList : List Node
  length : Int
  operationCounter : Int
  accessedPointers : HazardTable
  nextId : Nat
deriving Repr, DecidableEq

/-- The constructor `MarkedList::MarkedList()`: empty chain behind the
sentinel, zero counters, every hazard slot null. -/
def mkMarkedList : MList :=
  { chain := []
    retireList := []
    length := 0
    operationCounter := 0
    accessedPointers := List.replicate MAX_THREADS (List.replicate ACCESSED_PTRS_PER_THREAD none)
    nextId := 0 }

/-- `MarkedList::resetAccessedPointer(threadID)`: null out both slots of
the worker's row. -/
def resetAccessedPointer (threadID : Nat) (tab : HazardTable) : HazardTable :=
  tab.set threadID (List.replicate ACCESSED_PTRS_PER_THREAD none)

/-- `MarkedList::isNodeAccessed(node)`: scan every slot of every row for
the node. -/
def isNodeAccessed (tab : HazardTable) (nodeId : Nat) : Bool :=
  tab.any (fun row => row.any (fun slot => slot = some nodeId))

/-- The loop body of `MarkedList::scanAndReclaim()`: walk the retire list,
delete each node no hazard slot references, and collect the survivors as
the new retire list. -/
def scanAndReclaimLoop (tab : HazardTable) : List Node → List Node
  | [] => []
  | n :: rest =>
      if isNodeAccessed tab n.id then n :: scanAndReclaimLoop tab rest
      else scanAndReclaimLoop tab rest

/-- `MarkedList::validate(pred, curr)` with `pred->next == curr` already
holding (in the sequential semantics the state cannot have changed between
the traversal and the validation): `!pred->removed && !(curr && curr->removed)`. -/
def validate (predRemoved : Bool) (curr : Option Node) : Bool :=
  !predRemoved && (match curr with
    | none => true
    | some c => !c.removed)

/-- The `pred` reached by the unlocked traversal
`while (curr && curr->value < val)`: the last node with value `< val`,
or `none` when `pred` is still the sentinel. -/
def traversePred (val : Int) (chain : List Node) : Option Node :=
  (chain.takeWhile (fun n => n.value < val)).getLast?

/-- The `curr` reached by the unlocked traversal: the first node whose
value is not `< val`, or `none` at the tail. -/
def traverseCurr (val : Int) (chain : List Node) : Option Node :=
  (chain.dropWhile (fun n => n.value < val)).head?

/-- Sequential outcome of the validation step of `insert`/`remove`:
the sentinel is never removed, so `pred->removed` is read off the
traversed `pred` when it is a real node. -/
def seqValidate (val : Int) (chain : List Node) : Bool :=
  validate
    (match traversePred val chain with
      | none => false
      | some p => p.removed)
    (traverseCurr val chain)

/-- The link step of `MarkedList::insert`: walk while `curr->value < val`,
then splice `new Node(val, curr)` in front of `curr` (at the tail when
`curr` is null). -/
def insertChain (val : Int) (newId : Nat) : List Node → List Node
  | [] => [{ id := newId, value := val, removed := false }]
  | n :: rest =>
      if n.value < val then n :: insertChain val newId rest
      else { id := newId, value := val, removed := false } :: n :: rest

/-- The unlink step of `MarkedList::remove`: walk while
`curr->value < val`; if `curr` is null or `curr->value != val` the key is
absent (`none`); otherwise return the victim node together with the chain
after `pred->next = curr->next`. -/
def removeChain (val : Int) : List Node → Option (Node × List Node)
  | [] => none
  | n :: rest =>
      if n.value < val then
        match removeChain val rest with
        | none => none
        | some (v, c) => some (v, n :: c)
      else if n.value = val then some (n, rest)
      else none

/-- The state update of a completed `MarkedList::insert(val, threadID)`:
link the new node, reset the worker's hazard slots, bump `length`, and
run the reclamation trigger
`operationCounter.fetch_add(1) + 1 >= length` (the `length` read here is
the already-incremented value). -/
def insertBody (val : Int) (threadID : Nat) (s : MList) : MList :=
  let newChain := insertChain val s.nextId s.chain
  let tab := resetAccessedPointer threadID s.accessedPointers
  let len := s.length + 1
  if s.operationCounter + 1 ≥ len then
    { chain := newChain
      retireList := scanAndReclaimLoop tab s.retireList
      length := len
      operationCounter := s.operationCounter + 1 - len
      accessedPointers := tab
      nextId := s.nextId + 1 }
  else
    { chain := newChain
      retireList := s.retireList
      length := len
      operationCounter := s.operationCounter + 1
      accessedPointers := tab
      nextId := s.nextId + 1 }

/-- `MarkedList::insert(val, threadID)`, sequential semantics.  When the
validation step would fail, the C++ retry loop spins forever on an
unchanged state; the embedding returns `none` in that case. -/
def insert (val : Int) (threadID : Nat) (s : MList) : Option MList :=
  if seqValidate val s.chain then some (insertBody val threadID s) else none

/-- The state update of a `MarkedList::remove(val, threadID)` that found
its victim: mark it `removed`, unlink it, append it to the retire list,
reset the worker's hazard slots, decrement `length`, and run the
reclamation trigger (the `length` read in the trigger is the
already-decremented value). -/
def removeBody (victim : Node) (newChain : List Node) (threadID : Nat) (s : MList) : MList :=
  let retired : Node := { victim with removed := true }
  let tab := resetAccessedPointer threadID s.accessedPointers
  let len := s.length - 1
  let retire1 := s.retireList ++ [retired]
  if s.operationCounter + 1 ≥ len then
    { chain := newChain
      retireList := scanAndReclaimLoop tab retire1
      length := len
      operationCounter := s.operationCounter + 1 - len
      accessedPointers := tab
      nextId := s.nextId }
  else
    { chain := newChain
      retireList := retire1
      length := len
      operationCounter := s.operationCounter + 1
      accessedPointers := tab
      nextId := s.nextId }

/-- `MarkedList::remove(val, threadID)`, sequential semantics: `none`
models the forever-spinning retry after a validation failure; otherwise
the returned `Bool` is the C++ return value. -/
def remove (val : Int) (threadID : Nat) (s : MList) : Option (Bool × MList) :=
  if seqValidate val s.chain then
    match removeChain val s.chain with
    | none =>
        some (false, { s with accessedPointers := resetAccessedPointer threadID s.accessedPointers })
    | some (victim, newChain) => some (true, removeBody victim newChain threadID s)
  else none

/-- The search loop of `MarkedList::contains(val, threadID)`: walk while
`curr->value < val`; found iff `curr && !curr->removed && curr->value == val`. -/
def containsChain (val : Int) : List Node → Bool
  | [] => false
  | n :: rest =>
      if n.value < val then containsChain val rest
      else !n.removed && n.value = val

/-- `MarkedList::contains(val, threadID)`: a single unlocked pass (the
surrounding `while (true)` never iterates twice); the list state is
unchanged. -/
def contains (val : Int) (threadID : Nat) (s : MList) : Bool :=
  containsChain val s.chain

/-- `MarkedList::checkList()` relative to the running `prev->value`,
starting from the sentinel's value: `false` as soon as a node's value
drops below its predecessor's. -/
def checkListFrom (prevVal : Int) : List Node → Bool
  | [] => true
  | n :: rest => if n.value < prevVal then false else checkListFrom n.value rest

/-- `MarkedList::checkList()`: the sentinel (value `-1`) heads the walk. -/
def checkList (s : MList) : Bool :=
  checkListFrom (-1) s.chain

/-- A call of the public mutating interface: `insert` or `remove` with a
key and a worker id. -/
inductive Op where
  | ins (val : Int) (threadID : Nat)
  | rem (val : Int) (threadID : Nat)
deriving Repr, DecidableEq

/-- Run a sequence of operations, recording the number of completed
inserts (`i`) and of removes that returned `true` (`d`). -/
def runOpsCounted (s : MList) (i d : Nat) : List Op → Option (MList × Nat × Nat)
  | [] => some (s, i, d)
  | Op.ins v t :: rest =>
      match insert v t s with
      | none => none
      | some s' => runOpsCounted s' (i + 1) d rest
  | Op.rem v t :: rest =>
      match remove v t s with
      | none => none
      | some (b, s') => runOpsCounted s' i (if b then d + 1 else d) rest

/-- Run a sequence of operations for their state effect alone. -/
def runOps (s : MList) (ops : List Op) : Option MList :=
  (runOpsCounted s 0 0 ops).map (fun r => r.1)

end MarkedList

namespace MarkedList

/-! ### Basic list facts used throughout -/

theorem mem_of_getLast?_eq {l : List Node} {a : Node} (h : l.getLast? = some a) : a ∈ l := by
  have ha : a ∈ l.getLast? := h ▸ rfl
  rcases List.mem_getLast?_eq_getLast ha with ⟨hne, rfl⟩
  exact List.getLast_mem hne

theorem dropWhile_head_not {p : Node → Bool} {l : List Node} {x : Node} {xs : List Node}
    (h : l.dropWhile p = x :: xs) : p x = false := by
  have hd := List.head?_dropWhile_not p l
  rw [h] at hd
  simpa using hd

/-! ### Characterization of the traversal-and-link steps -/

theorem insertChain_eq (val : Int) (newId : Nat) :
    ∀ c : List Node, insertChain val newId c =
      c.takeWhile (fun n => n.value < val) ++
        { id := newId, value := val, removed := false } ::
          c.dropWhile (fun n => n.value < val) := by
  intro c
  induction c with
  | nil => simp [insertChain]
  | cons n rest ih =>
      by_cases h : n.value < val
      · simp [insertChain, h, List.takeWhile_cons, List.dropWhile_cons, ih]
      · simp [insertChain, h, List.takeWhile_cons, List.dropWhile_cons]

theorem removeChain_eq (val : Int) :
    ∀ c : List Node, removeChain val c =
      (match c.dropWhile (fun n => n.value < val) with
        | [] => none
        | n :: rest =>
            if n.value = val then some (n, c.takeWhile (fun m => m.value < val) ++ rest)
            else none) := by
  intro c
  induction c with
  | nil => simp [removeChain]
  | cons n rest ih =>
      by_cases h : n.value < val
      · rw [show removeChain val (n :: rest) =
            (match removeChain val rest with
              | none => none
              | some (v, c) => some (v, n :: c)) from by simp [removeChain, h]]
        rw [ih]
        cases hdw : rest.dropWhile (fun m => decide (m.value < val)) with
        | nil => simp [List.dropWhile_cons, h, hdw]
        | cons m r2 =>
            by_cases hm : m.value = val
            · simp [List.dropWhile_cons, h, hdw, hm, List.takeWhile_cons]
            · simp [List.dropWhile_cons, h, hdw, hm]
      · by_cases he : n.value = val
        · simp [removeChain, h, he, List.dropWhile_cons, List.takeWhile_cons]
        · simp [removeChain, h, he, List.dropWhile_cons]

theorem containsChain_iff (val : Int) :
    ∀ c : List Node, (containsChain val c = true ↔
      ∃ m, (c.dropWhile (fun n => n.value < val)).head? = some m ∧
        m.removed = false ∧ m.value = val) := by
  intro c
  induction c with
  | nil => simp [containsChain]
  | cons n rest ih =>
      by_cases h : n.value < val
      · simpa [containsChain, h, List.dropWhile_cons] using ih
      · simp only [containsChain, if_neg h, List.dropWhile_cons, decide_eq_true_eq, h,
          ite_false, List.head?_cons, Option.some.injEq, Bool.and_eq_true, Bool.not_eq_true',
          decide_eq_true_eq]
        constructor
        · rintro ⟨h1, h2⟩; exact ⟨n, rfl, h1, h2⟩
        · rintro ⟨m, hm, h1, h2⟩; cases hm; exact ⟨h1, h2⟩

/-! ### Validation always succeeds on a chain of unremoved nodes -/

theorem seqValidate_of_unremoved {c : List Node} (h : ∀ n ∈ c, n.removed = false)
    (val : Int) : seqValidate val c = true := by
  unfold seqValidate validate traversePred traverseCurr
  cases htw : (c.takeWhile (fun n => n.value < val)).getLast? with
  | none =>
      cases hdw : (c.dropWhile (fun n => n.value < val)).head? with
      | none => simp
      | some m =>
          have hm : m.removed = false :=
            h m ((List.dropWhile_sublist _).subset (List.mem_of_mem_head? hdw))
          simp [hm]
  | some p =>
      have hp : p.removed = false :=
        h p ((List.takeWhile_sublist _).subset (mem_of_getLast?_eq htw))
      cases hdw : (c.dropWhile (fun n => n.value < val)).head? with
      | none => simp [hp]
      | some m =>
          have hm : m.removed = false :=
            h m ((List.dropWhile_sublist _).subset (List.mem_of_mem_head? hdw))
          simp [hp, hm]

/-! ### The reclaimer -/

theorem isNodeAccessed_iff (tab : HazardTable) (nodeId : Nat) :
    isNodeAccessed tab nodeId = true ↔ ∃ row ∈ tab, ∃ slot ∈ row, slot = some nodeId := by
  simp [isNodeAccessed, List.any_eq_true]

theorem mem_scanAndReclaimLoop (tab : HazardTable) :
    ∀ (r : List Node) (n : Node),
      n ∈ scanAndReclaimLoop tab r ↔ n ∈ r ∧ isNodeAccessed tab n.id = true := by
  intro r
  induction r with
  | nil => simp [scanAndReclaimLoop]
  | cons m rest ih =>
      intro n
      by_cases hm : isNodeAccessed tab m.id
      · simp only [scanAndReclaimLoop, if_pos hm, List.mem_cons, ih]
        constructor
        · rintro (rfl | ⟨hn, ha⟩)
          · exact ⟨Or.inl rfl, hm⟩
          · exact ⟨Or.inr hn, ha⟩
        · rintro ⟨rfl | hn, ha⟩
          · exact Or.inl rfl
          · exact Or.inr ⟨hn, ha⟩
      · simp only [scanAndReclaimLoop, if_neg hm, List.mem_cons, ih]
        constructor
        · rintro ⟨hn, ha⟩; exact ⟨Or.inr hn, ha⟩
        · rintro ⟨rfl | hn, ha⟩
          · exact absurd ha hm
          · exact ⟨hn, ha⟩

theorem scanAndReclaimLoop_nil_of_null (tab : HazardTable)
    (h : ∀ row ∈ tab, ∀ slot ∈ row, slot = none) :
    ∀ r : List Node, scanAndReclaimLoop tab r = [] := by
  have hacc : ∀ nodeId, isNodeAccessed tab nodeId = false := by
    intro nodeId
    by_contra hne
    have : isNodeAccessed tab nodeId = true := by
      cases hb : isNodeAccessed tab nodeId
      · exact absurd hb hne
      · rfl
    rcases (isNodeAccessed_iff tab nodeId).mp this with ⟨row, hrow, slot, hslot, heq⟩
    have := h row hrow slot hslot
    simp [this] at heq
  intro r
  induction r with
  | nil => rfl
  | cons m rest ih => simp [scanAndReclaimLoop, hacc, ih]

/-! ### Sortedness -/

theorem checkListFrom_eq_true :
    ∀ (c : List Node), c.Pairwise (fun a b => a.value ≤ b.value) →
      ∀ p : Int, (∀ n ∈ c, p ≤ n.value) → checkListFrom p c = true := by
  intro c
  induction c with
  | nil => intro _ p _; rfl
  | cons n rest ih =>
      intro hs p hp
      have h1 : p ≤ n.value := hp n (List.mem_cons_self n rest)
      rw [checkListFrom, if_neg (not_lt.mpr h1)]
      exact ih (List.Pairwise.of_cons hs) n.value
        (fun m hm => List.rel_of_pairwise_cons hs hm)

theorem dropWhile_val_le {c : List Node} (hs : c.Pairwise (fun a b => a.value ≤ b.value))
    (val : Int) : ∀ b ∈ c.dropWhile (fun n => n.value < val), val ≤ b.value := by
  intro b hb
  have hsd : (c.dropWhile (fun n => n.value < val)).Pairwise (fun a b => a.value ≤ b.value) :=
    hs.sublist (List.dropWhile_sublist _)
  cases hdw : c.dropWhile (fun n => decide (n.value < val)) with
  | nil => rw [hdw] at hb; cases hb
  | cons h t =>
      rw [hdw] at hb hsd
      have hh : ¬ h.value < val := by
        have := dropWhile_head_not hdw
        simpa using this
      rcases List.mem_cons.mp hb with rfl | hbt
      · exact le_of_not_lt hh
      · exact le_trans (le_of_not_lt hh) (List.rel_of_pairwise_cons hsd hbt)

theorem takeWhile_val_lt {c : List Node} (val : Int) :
    ∀ a ∈ c.takeWhile (fun n => n.value < val), a.value < val := by
  intro a ha
  have := List.mem_takeWhile_imp ha
  simpa using this

theorem pairwise_splice {R : Node → Node → Prop} {tw dw : List Node} {x : Node}
    (hc : (tw ++ dw).Pairwise R) (h1 : ∀ a ∈ tw, R a x) (h2 : ∀ b ∈ dw, R x b) :
    (tw ++ x :: dw).Pairwise R := by
  rw [List.pairwise_append] at hc ⊢
  obtain ⟨htw, hdw, hcross⟩ := hc
  refine ⟨htw, List.Pairwise.cons h2 hdw, ?_⟩
  intro a ha b hb
  rcases List.mem_cons.mp hb with rfl | hb'
  · exact h1 a ha
  · exact hcross a ha b hb'

/-! ### The quiescent-state invariant -/

/-- Invariant of every quiescent (no operation in flight) state reachable
from a fresh `MarkedList` by sequential operations. -/
structure WF (s : MList) : Prop where
  unremoved : ∀ n ∈ s.chain, n.removed = false
  sorted : s.chain.Pairwise (fun a b => a.value ≤ b.value)
  lenEq : s.length = s.chain.length
  opcNonneg : 0 ≤ s.operationCounter
  retireMarked : ∀ n ∈ s.retireList, n.removed = true
  chainFresh : ∀ n ∈ s.chain, n.id < s.nextId
  retireFresh : ∀ n ∈ s.retireList, n.id < s.nextId
  chainIds : s.chain.Pairwise (fun a b => a.id ≠ b.id)
  disj : ∀ n ∈ s.retireList, ∀ m ∈ s.chain, n.id ≠ m.id

theorem WF_mkMarkedList : WF mkMarkedList := by
  constructor <;> simp [mkMarkedList]

/-! ### Field computations for the operation bodies -/

theorem insertBody_chain (val : Int) (t : Nat) (s : MList) :
    (insertBody val t s).chain = insertChain val s.nextId s.chain := by
  simp only [insertBody]
  split <;> rfl

theorem insertBody_length (val : Int) (t : Nat) (s : MList) :
    (insertBody val t s).length = s.length + 1 := by
  simp only [insertBody]
  split <;> rfl

theorem insertBody_nextId (val : Int) (t : Nat) (s : MList) :
    (insertBody val t s).nextId = s.nextId + 1 := by
  simp only [insertBody]
  split <;> rfl

theorem insertBody_opc_nonneg (val : Int) (t : Nat) (s : MList)
    (h : 0 ≤ s.operationCounter) : 0 ≤ (insertBody val t s).operationCounter := by
  simp only [insertBody]
  split
  · rename_i hge
    simp only
    omega
  · simp only
    omega

theorem insertBody_retire_sub (val : Int) (t : Nat) (s : MList) :
    ∀ n ∈ (insertBody val t s).retireList, n ∈ s.retireList := by
  simp only [insertBody]
  split
  · intro n hn
    exact ((mem_scanAndReclaimLoop _ _ n).mp hn).1
  · intro n hn
    exact hn

theorem removeBody_chain (v : Node) (nc : List Node) (t : Nat) (s : MList) :
    (removeBody v nc t s).chain = nc := by
  simp only [removeBody]
  split <;> rfl

theorem removeBody_length (v : Node) (nc : List Node) (t : Nat) (s : MList) :
    (removeBody v nc t s).length = s.length - 1 := by
  simp only [removeBody]
  split <;> rfl

theorem removeBody_nextId (v : Node) (nc : List Node) (t : Nat) (s : MList) :
    (removeBody v nc t s).nextId = s.nextId := by
  simp only [removeBody]
  split <;> rfl

theorem removeBody_opc_nonneg (v : Node) (nc : List Node) (t : Nat) (s : MList)
    (h : 0 ≤ s.operationCounter) : 0 ≤ (removeBody v nc t s).operationCounter := by
  simp only [removeBody]
  split
  · rename_i hge
    simp only
    omega
  · simp only
    omega

theorem removeBody_retire_sub (v : Node) (nc : List Node) (t : Nat) (s : MList) :
    ∀ n ∈ (removeBody v nc t s).retireList,
      n ∈ s.retireList ++ [{ v with removed := true }] := by
  simp only [removeBody]
  split
  · intro n hn
    exact ((mem_scanAndReclaimLoop _ _ n).mp hn).1
  · intro n hn
    exact hn

/-! ### Shape of a successful and of a failed unlink -/

theorem removeChain_some_elim {val : Int} {c : List Node} {victim : Node} {nc : List Node}
    (h : removeChain val c = some (victim, nc)) :
    ∃ rest, c.dropWhile (fun n => n.value < val) = victim :: rest ∧
      victim.value = val ∧ nc = c.takeWhile (fun n => n.value < val) ++ rest := by
  rw [removeChain_eq] at h
  split at h
  · cases h
  · rename_i n rest hdw
    split at h
    · rename_i hv
      obtain ⟨rfl, rfl⟩ : n = victim ∧ c.takeWhile (fun m => m.value < val) ++ rest = nc := by
        simpa using h
      exact ⟨rest, hdw, hv, rfl⟩
    · cases h

theorem removeChain_none_iff {val : Int} {c : List Node}
    (hs : c.Pairwise (fun a b => a.value ≤ b.value)) :
    removeChain val c = none ↔ ∀ n ∈ c, n.value ≠ val := by
  rw [removeChain_eq]
  cases hdw : c.dropWhile (fun n => decide (n.value < val)) with
  | nil =>
      simp only [true_iff]
      intro n hn
      have hall : ∀ m ∈ c, decide (m.value < val) = true := List.dropWhile_eq_nil_iff.mp hdw
      have hlt : n.value < val := by simpa using hall n hn
      exact ne_of_lt hlt
  | cons m rest =>
      dsimp only
      have hsplit : c.takeWhile (fun n => decide (n.value < val)) ++ m :: rest = c := by
        rw [← hdw]
        exact List.takeWhile_append_dropWhile _ _
      have hsd : (m :: rest).Pairwise (fun a b : Node => a.value ≤ b.value) := by
        have := hs.sublist (List.dropWhile_sublist (fun n => decide (n.value < val)))
        rwa [hdw] at this
      by_cases hv : m.value = val
      · rw [if_pos hv]
        simp only [reduceCtorEq, false_iff, not_forall]
        refine ⟨m, ?_⟩
        have hmem : m ∈ c :=
          (List.dropWhile_sublist _).subset (hdw ▸ List.mem_cons_self m rest)
        exact ⟨hmem, by simpa using hv⟩
      · rw [if_neg hv]
        simp only [true_iff]
        have hgt : val < m.value := by
          have hnl : ¬ m.value < val := by simpa using dropWhile_head_not hdw
          exact lt_of_le_of_ne (le_of_not_lt hnl) (Ne.symm hv)
        intro n hn
        rw [← hsplit] at hn
        rcases List.mem_append.mp hn with htw | hdwm
        · have : n.value < val := by simpa using List.mem_takeWhile_imp htw
          exact ne_of_lt this
        · rcases List.mem_cons.mp hdwm with rfl | hrest
          · exact hv
          · have : m.value ≤ n.value := List.rel_of_pairwise_cons hsd hrest
            exact ne_of_gt (lt_of_lt_of_le hgt this)

/-! ### The invariant is preserved by `insert` -/

theorem insert_eq_some {s : MList} (h : ∀ n ∈ s.chain, n.removed = false)
    (val : Int) (t : Nat) : insert val t s = some (insertBody val t s) := by
  rw [insert, if_pos (seqValidate_of_unremoved h val)]

theorem mem_insertChain {val : Int} {newId : Nat} {c : List Node} {n : Node}
    (hn : n ∈ insertChain val newId c) :
    n = { id := newId, value := val, removed := false } ∨ n ∈ c := by
  rw [insertChain_eq] at hn
  rcases List.mem_append.mp hn with htw | hco
  · exact Or.inr ((List.takeWhile_sublist _).subset htw)
  · rcases List.mem_cons.mp hco with rfl | hdw
    · exact Or.inl rfl
    · exact Or.inr ((List.dropWhile_sublist _).subset hdw)

theorem WF_insertBody {s : MList} (hWF : WF s) (val : Int) (t : Nat) :
    WF (insertBody val t s) := by
  have hchain := insertBody_chain val t s
  have hc : s.chain.takeWhile (fun n => n.value < val) ++
      s.chain.dropWhile (fun n => n.value < val) = s.chain :=
    List.takeWhile_append_dropWhile _ _
  constructor
  · intro n hn
    rw [hchain] at hn
    rcases mem_insertChain hn with rfl | hm
    · rfl
    · exact hWF.unremoved n hm
  · rw [hchain, insertChain_eq]
    have hpair : (s.chain.takeWhile (fun n => n.value < val) ++
        s.chain.dropWhile (fun n => n.value < val)).Pairwise
          (fun a b => a.value ≤ b.value) := by
      rw [hc]; exact hWF.sorted
    refine pairwise_splice hpair ?_ ?_
    · intro a ha
      exact le_of_lt (takeWhile_val_lt val a ha)
    · intro b hb
      exact dropWhile_val_le hWF.sorted val b hb
  · have hlen := congrArg List.length hc
    rw [insertBody_length, hchain, insertChain_eq, hWF.lenEq]
    simp only [List.length_append, List.length_cons] at hlen ⊢
    omega
  · exact insertBody_opc_nonneg val t s hWF.opcNonneg
  · intro n hn
    exact hWF.retireMarked n (insertBody_retire_sub val t s n hn)
  · intro n hn
    rw [hchain] at hn
    rw [insertBody_nextId]
    rcases mem_insertChain hn with rfl | hm
    · exact Nat.lt_succ_self _
    · exact Nat.lt_succ_of_lt (hWF.chainFresh n hm)
  · intro n hn
    rw [insertBody_nextId]
    exact Nat.lt_succ_of_lt (hWF.retireFresh n (insertBody_retire_sub val t s n hn))
  · rw [hchain, insertChain_eq]
    have hpair : (s.chain.takeWhile (fun n => n.value < val) ++
        s.chain.dropWhile (fun n => n.value < val)).Pairwise
          (fun a b => a.id ≠ b.id) := by
      rw [hc]; exact hWF.chainIds
    refine pairwise_splice hpair ?_ ?_
    · intro a ha
      have : a ∈ s.chain := (List.takeWhile_sublist _).subset ha
      exact Nat.ne_of_lt (hWF.chainFresh a this)
    · intro b hb
      have : b ∈ s.chain := (List.dropWhile_sublist _).subset hb
      exact (Nat.ne_of_lt (hWF.chainFresh b this)).symm
  · intro n hn m hm
    rw [hchain] at hm
    have hnr : n ∈ s.retireList := insertBody_retire_sub val t s n hn
    rcases mem_insertChain hm with rfl | hm'
    · exact Nat.ne_of_lt (hWF.retireFresh n hnr)
    · exact hWF.disj n hnr m hm'

/-! ### The invariant is preserved by `remove` -/

theorem remove_eq {s : MList} (h : ∀ n ∈ s.chain, n.removed = false) (val : Int) (t : Nat) :
    remove val t s =
      (match removeChain val s.chain with
        | none =>
            some (false, { s with accessedPointers := resetAccessedPointer t s.accessedPointers })
        | some (victim, newChain) => some (true, removeBody victim newChain t s)) := by
  rw [remove, if_pos (seqValidate_of_unremoved h val)]

theorem WF_setTable {s : MList} (hWF : WF s) (tab : HazardTable) :
    WF { s with accessedPointers := tab } := by
  obtain ⟨h1, h2, h3, h4, h5, h6, h7, h8, h9⟩ := hWF
  exact ⟨h1, h2, h3, h4, h5, h6, h7, h8, h9⟩

theorem removeChain_sublist {val : Int} {c : List Node} {victim : Node} {nc : List Node}
    (h : removeChain val c = some (victim, nc)) : nc.Sublist c := by
  obtain ⟨rest, hdw, _, rfl⟩ := removeChain_some_elim h
  have h1 : (c.takeWhile (fun n => n.value < val) ++ rest).Sublist
      (c.takeWhile (fun n => n.value < val) ++ victim :: rest) :=
    (List.sublist_cons_self victim rest).append_left _
  have h2 : c.takeWhile (fun n => n.value < val) ++ victim :: rest = c := by
    rw [← hdw]
    exact List.takeWhile_append_dropWhile _ _
  conv_rhs => rw [← h2]
  exact h1

theorem removeChain_victim_mem {val : Int} {c : List Node} {victim : Node} {nc : List Node}
    (h : removeChain val c = some (victim, nc)) : victim ∈ c ∧ victim.value = val := by
  obtain ⟨rest, hdw, hval, _⟩ := removeChain_some_elim h
  exact ⟨(List.dropWhile_sublist _).subset (hdw ▸ List.mem_cons_self victim rest), hval⟩

theorem removeChain_length {val : Int} {c : List Node} {victim : Node} {nc : List Node}
    (h : removeChain val c = some (victim, nc)) : nc.length + 1 = c.length := by
  obtain ⟨rest, hdw, _, rfl⟩ := removeChain_some_elim h
  have h2 : c.takeWhile (fun n => n.value < val) ++ victim :: rest = c := by
    rw [← hdw]
    exact List.takeWhile_append_dropWhile _ _
  have := congrArg List.length h2
  simp only [List.length_append, List.length_cons] at this ⊢
  omega

theorem removeChain_victim_not_mem {val : Int} {c : List Node} {victim : Node} {nc : List Node}
    (hids : c.Pairwise (fun a b => a.id ≠ b.id))
    (h : removeChain val c = some (victim, nc)) : ∀ m ∈ nc, victim.id ≠ m.id := by
  obtain ⟨rest, hdw, _, rfl⟩ := removeChain_some_elim h
  have h2 : c.takeWhile (fun n => n.value < val) ++ victim :: rest = c := by
    rw [← hdw]
    exact List.takeWhile_append_dropWhile _ _
  have hp : (c.takeWhile (fun n => n.value < val) ++ victim :: rest).Pairwise
      (fun a b => a.id ≠ b.id) := by
    rw [h2]; exact hids
  rw [List.pairwise_append] at hp
  obtain ⟨_, hco, hcross⟩ := hp
  intro m hm
  rcases List.mem_append.mp hm with htw | hrest
  · exact (hcross m htw victim (List.mem_cons_self victim rest)).symm
  · exact List.rel_of_pairwise_cons hco hrest

theorem WF_removeBody {s : MList} (hWF : WF s) {val : Int} {victim : Node} {nc : List Node}
    (hrc : removeChain val s.chain = some (victim, nc)) (t : Nat) :
    WF (removeBody victim nc t s) := by
  have hchain := removeBody_chain victim nc t s
  have hsub : nc.Sublist s.chain := removeChain_sublist hrc
  have hretire := removeBody_retire_sub victim nc t s
  constructor
  · intro n hn
    rw [hchain] at hn
    exact hWF.unremoved n (hsub.subset hn)
  · rw [hchain]
    exact hWF.sorted.sublist hsub
  · rw [removeBody_length, hchain, hWF.lenEq]
    have := removeChain_length hrc
    omega
  · exact removeBody_opc_nonneg victim nc t s hWF.opcNonneg
  · intro n hn
    rcases List.mem_append.mp (hretire n hn) with hold | hnew
    · exact hWF.retireMarked n hold
    · rw [List.mem_singleton.mp hnew]
  · intro n hn
    rw [hchain] at hn
    rw [removeBody_nextId]
    exact hWF.chainFresh n (hsub.subset hn)
  · intro n hn
    rw [removeBody_nextId]
    rcases List.mem_append.mp (hretire n hn) with hold | hnew
    · exact hWF.retireFresh n hold
    · rw [List.mem_singleton.mp hnew]
      exact hWF.chainFresh victim (removeChain_victim_mem hrc).1
  · rw [hchain]
    exact hWF.chainIds.sublist hsub
  · intro n hn m hm
    rw [hchain] at hm
    rcases List.mem_append.mp (hretire n hn) with hold | hnew
    · exact hWF.disj n hold m (hsub.subset hm)
    · rw [List.mem_singleton.mp hnew]
      exact removeChain_victim_not_mem hWF.chainIds hrc m hm

/-! ### Running an operation sequence from a well-formed state -/

theorem insertChain_length (val : Int) (newId : Nat) (c : List Node) :
    (insertChain val newId c).length = c.length + 1 := by
  rw [insertChain_eq]
  have := congrArg List.length
    (List.takeWhile_append_dropWhile (fun n => decide (n.value < val)) c)
  simp only [List.length_append, List.length_cons] at this ⊢
  omega

theorem runMaster :
    ∀ (ops : List Op) (s : MList) (i d : Nat), WF s →
      ∃ s' i' d', runOpsCounted s i d ops = some (s', i', d') ∧ WF s' ∧
        (s'.chain.length : Int) + d' - i' = (s.chain.length : Int) + d - i ∧
        (∀ n ∈ s'.chain, (∃ v t, Op.ins v t ∈ ops ∧ n.value = v) ∨ n ∈ s.chain) := by
  intro ops
  induction ops with
  | nil =>
      intro s i d hWF
      exact ⟨s, i, d, rfl, hWF, rfl, fun n hn => Or.inr hn⟩
  | cons op rest ih =>
      intro s i d hWF
      cases op with
      | ins v t =>
          obtain ⟨s', i', d', hrun, hWF', hcnt, horig⟩ :=
            ih (insertBody v t s) (i + 1) d (WF_insertBody hWF v t)
          refine ⟨s', i', d', ?_, hWF', ?_, ?_⟩
          · simp only [runOpsCounted, insert_eq_some hWF.unremoved v t]
            exact hrun
          · have hlen : (insertBody v t s).chain.length = s.chain.length + 1 := by
              rw [insertBody_chain]
              exact insertChain_length v s.nextId s.chain
            rw [hcnt, hlen]
            push_cast
            ring
          · intro n hn
            rcases horig n hn with ⟨v', t', hmem, hval⟩ | hins
            · exact Or.inl ⟨v', t', List.mem_cons_of_mem _ hmem, hval⟩
            · rw [insertBody_chain] at hins
              rcases mem_insertChain hins with rfl | hm
              · exact Or.inl ⟨v, t, List.mem_cons_self _ _, rfl⟩
              · exact Or.inr hm
      | rem v t =>
          cases hrc : removeChain v s.chain with
          | none =>
              obtain ⟨s', i', d', hrun, hWF', hcnt, horig⟩ :=
                ih { s with accessedPointers := resetAccessedPointer t s.accessedPointers } i d
                  (WF_setTable hWF _)
              refine ⟨s', i', d', ?_, hWF', hcnt, ?_⟩
              · simp only [runOpsCounted, remove_eq hWF.unremoved v t, hrc]
                exact hrun
              · intro n hn
                rcases horig n hn with ⟨v', t', hmem, hval⟩ | hm
                · exact Or.inl ⟨v', t', List.mem_cons_of_mem _ hmem, hval⟩
                · exact Or.inr hm
          | some pair =>
              obtain ⟨victim, nc⟩ := pair
              obtain ⟨s', i', d', hrun, hWF', hcnt, horig⟩ :=
                ih (removeBody victim nc t s) i (d + 1) (WF_removeBody hWF hrc t)
              refine ⟨s', i', d', ?_, hWF', ?_, ?_⟩
              · simp only [runOpsCounted, remove_eq hWF.unremoved v t, hrc]
                exact hrun
              · have hlen := removeChain_length hrc
                rw [hcnt, removeBody_chain]
                push_cast
                omega
              · intro n hn
                rcases horig n hn with ⟨v', t', hmem, hval⟩ | hm
                · exact Or.inl ⟨v', t', List.mem_cons_of_mem _ hmem, hval⟩
                · rw [removeBody_chain] at hm
                  exact Or.inr ((removeChain_sublist hrc).subset hm)

/-! ### Hazard discipline of the unlocked traversals, as event traces

The order of `storeAccessedPointer` calls and node-field reads inside the
unlocked traversals is modelled as a list of events: `publish t s p` is
`storeAccessedPointer(t, p, s)` (with `p` the published node, or `none`
for a null pointer) and `deref n` is a read of `n->value` or `n->next`.
Reads of the sentinel's fields produce no event (the sentinel is never
reclaimed). -/

inductive Event where
  | publish (threadID slot : Nat) (node : Option Nat)
  | deref (node : Nat)
deriving Repr, DecidableEq

/-- Events of one run of the traversal loop shared verbatim by `insert`
and `remove`: the `while` condition reads `curr->value`, then the body
publishes `curr` into slot 0, reads `curr->next` and publishes it into
slot 1 before advancing. -/
def traverseTraceGo (threadID : Nat) (val : Int) : List Node → List Event
  | [] => []
  | n :: rest =>
      Event.deref n.id ::
        (if n.value < val then
          Event.publish threadID 0 (some n.id) ::
            Event.deref n.id ::
              Event.publish threadID 1 (rest.head?.map (fun m => m.id)) ::
                traverseTraceGo threadID val rest
        else [])

/-- Events of the unlocked traversal of `MarkedList::insert`: `head->next`
is published into slot 0 before the loop first dereferences it. -/
def insertTrace (threadID : Nat) (val : Int) (chain : List Node) : List Event :=
  Event.publish threadID 0 (chain.head?.map (fun m => m.id)) ::
    traverseTraceGo threadID val chain

/-- Events of the unlocked traversal of `MarkedList::remove`: `curr` is
set to `head->next` (a sentinel-field read), which is published into
slot 0 before the loop first dereferences it; the loop itself is the same
as in `insert`. -/
def removeTrace (threadID : Nat) (val : Int) (chain : List Node) : List Event :=
  Event.publish threadID 0 (chain.head?.map (fun m => m.id)) ::
    traverseTraceGo threadID val chain

/-- Events of the loop of `MarkedList::contains`: the `while` condition
reads `curr->value`; the body reads `curr->next`, advances, and publishes
the new `curr` into slot 0 before the next condition check. -/
def containsTraceGo (threadID : Nat) (val : Int) : List Node → List Event
  | [] => []
  | n :: rest =>
      Event.deref n.id ::
        (if n.value < val then
          Event.deref n.id ::
            Event.publish threadID 0 (rest.head?.map (fun m => m.id)) ::
              containsTraceGo threadID val rest
        else [])

/-- Events of `MarkedList::contains`: `head->next` is published into
slot 0 before the loop first dereferences it. -/
def containsTrace (threadID : Nat) (val : Int) (chain : List Node) : List Event :=
  Event.publish threadID 0 (chain.head?.map (fun m => m.id)) ::
    containsTraceGo threadID val chain

/-- Checks, along a trace, that every dereferenced node was published
earlier into one of worker `threadID`'s hazard slots (into slot 0 only,
when `slot0Only` is set).  `pub` accumulates the published node ids. -/
def hazardOk (threadID : Nat) (slot0Only : Bool) (pub : List Nat) : List Event → Bool
  | [] => true
  | Event.publish t slot node :: rest =>
      (match node with
        | some n =>
            if t == threadID && (!slot0Only || slot == 0) then
              hazardOk threadID slot0Only (n :: pub) rest
            else hazardOk threadID slot0Only pub rest
        | none => hazardOk threadID slot0Only pub rest)
  | Event.deref n :: rest => pub.contains n && hazardOk threadID slot0Only pub rest

theorem hazardOk_traverseTraceGo (threadID : Nat) (val : Int) :
    ∀ (chain : List Node) (pub : List Nat),
      (∀ n, chain.head? = some n → pub.contains n.id = true) →
      hazardOk threadID false pub (traverseTraceGo threadID val chain) = true := by
  intro chain
  induction chain with
  | nil => intro pub _; rfl
  | cons n rest ih =>
      intro pub hhead
      have hn : pub.contains n.id = true := hhead n rfl
      have hmem : n.id ∈ pub := by simpa using hn
      by_cases hv : n.value < val
      · cases rest with
        | nil =>
            simp [traverseTraceGo, hv, hazardOk, hn, hmem]
        | cons m r2 =>
            simp only [traverseTraceGo, if_pos hv, List.head?_cons, Option.map_some',
              hazardOk, hn, Bool.true_and, beq_self_eq_true, Bool.not_false, Bool.true_or,
              Bool.and_self, if_true]
            have hc : (n.id :: pub).contains n.id = true := by simp
            rw [hc]
            simp only [Bool.true_and]
            exact ih (m.id :: n.id :: pub) (by intro x hx; cases hx; simp)
      · simp [traverseTraceGo, hv, hazardOk, hn, hmem]

theorem hazardOk_containsTraceGo (threadID : Nat) (val : Int) :
    ∀ (chain : List Node) (pub : List Nat),
      (∀ n, chain.head? = some n → pub.contains n.id = true) →
      hazardOk threadID true pub (containsTraceGo threadID val chain) = true := by
  intro chain
  induction chain with
  | nil => intro pub _; rfl
  | cons n rest ih =>
      intro pub hhead
      have hn : pub.contains n.id = true := hhead n rfl
      have hmem : n.id ∈ pub := by simpa using hn
      by_cases hv : n.value < val
      · cases rest with
        | nil =>
            simp [containsTraceGo, hv, hazardOk, hn, hmem]
        | cons m r2 =>
            simp only [containsTraceGo, if_pos hv, List.head?_cons, Option.map_some',
              hazardOk, hn, Bool.true_and, beq_self_eq_true, Bool.not_true, Bool.false_or,
              Bool.and_self, if_true]
            exact ih (m.id :: pub) (by intro x hx; cases hx; simp)
      · simp [containsTraceGo, hv, hazardOk, hn, hmem]

/-! ### Concrete scenarios from the spec -/

/-- Scenario S1: insert keys `[5, 2, 8, 2, 5, 1]` from worker 0. -/
def scenarioS1 : List Op :=
  [Op.ins 5 0, Op.ins 2 0, Op.ins 8 0, Op.ins 2 0, Op.ins 5 0, Op.ins 1 0]

/-- The keys inserted by a sequence of operations. -/
def insVals : List Op → List Int
  | [] => []
  | Op.ins v _ :: rest => v :: insVals rest
  | Op.rem _ _ :: rest => insVals rest

theorem mem_insVals : ∀ {ops : List Op} {v : Int} {t : Nat},
    Op.ins v t ∈ ops → v ∈ insVals ops := by
  intro ops
  induction ops with
  | nil => intro v t h; cases h
  | cons op rest ih =>
      intro v t h
      rcases List.mem_cons.mp h with rfl | hm
      · simp [insVals]
      · cases op with
        | ins v' t' => exact List.mem_cons_of_mem _ (ih hm)
        | rem v' t' => exact ih hm

/-- Scenario S1 followed by two successful `remove(5, 0)` calls; the
second remove leaves one node in the retire list. -/
def ops6 : List Op := scenarioS1 ++ [Op.rem 5 0, Op.rem 5 0]

/-- The state after running `ops6` from a fresh list. -/
def s6 : MList := ((runOpsCounted mkMarkedList 0 0 ops6).getD (mkMarkedList, 0, 0)).1

/-- The state after additionally removing key 2 from `s6`. -/
def s6r : MList := ((remove 2 0 s6).getD (false, mkMarkedList)).2

/-- The final state and counters of scenario S1. -/
def s5w : MList × Nat × Nat :=
  (runOpsCounted mkMarkedList 0 0 scenarioS1).getD (mkMarkedList, 0, 0)

/-- A state holding one reachable node that is logically removed but not
yet physically unlinked (as seen by a concurrent `contains`). -/
def deadNodeState : MList :=
  { chain := [{ id := 0, value := 7, removed := true }]
    retireList := []
    length := 1
    operationCounter := 0
    accessedPointers := List.replicate MAX_THREADS (List.replicate ACCESSED_PTRS_PER_THREAD none)
    nextId := 1 }

/-! ### The claims -/

/-- C1: for every list state (with no reachable node marked removed, so
that validation succeeds) and every key, `insert(key, worker_id)` places
exactly one new node immediately before the first reachable node whose
key is `≥` the new key (at the tail if none); in particular inserting
`[5, 2, 8, 2, 5, 1]` from worker 0 into a fresh list yields the traversal
`[1, 2, 2, 5, 5, 8]` with `length = 6`. -/
theorem insert_places_node_before_first_geq :
    (∀ (s : MList) (val : Int) (threadID : Nat),
      (∀ n ∈ s.chain, n.removed = false) →
      insert val threadID s = some (insertBody val threadID s) ∧
      (insertBody val threadID s).chain =
        s.chain.takeWhile (fun n => n.value < val) ++
          { id := s.nextId, value := val, removed := false } ::
            s.chain.dropWhile (fun n => n.value < val)) ∧
    (runOps mkMarkedList scenarioS1).map
        (fun s => (s.chain.map (fun n => n.value), s.length)) =
      some ([1, 2, 2, 5, 5, 8], 6) := by
  constructor
  · intro s val t h
    exact ⟨insert_eq_some h val t, by rw [insertBody_chain, insertChain_eq]⟩
  · decide

theorem insert_places_node_before_first_geq_witness :
    insert 3 0 mkMarkedList = some (insertBody 3 0 mkMarkedList) ∧
    (insertBody 3 0 mkMarkedList).chain =
      mkMarkedList.chain.takeWhile (fun n => n.value < 3) ++
        { id := mkMarkedList.nextId, value := 3, removed := false } ::
          mkMarkedList.chain.dropWhile (fun n => n.value < 3) :=
  insert_places_node_before_first_geq.1 mkMarkedList 3 0 (by decide)

/-- C2: for every list state (no reachable node marked, chain sorted, as
holds in every reachable state) and every key, `remove(key, worker_id)`
returns `true` iff a node with that key is reachable, unlinks exactly the
first equal-keyed node, and returns `false` leaving the chain unchanged
when the key is absent; in particular after S1 three `remove(5, 0)` calls
return `true` (traversal `[1, 2, 2, 5, 8]`), `true` (traversal
`[1, 2, 2, 8]`), then `false`. -/
theorem remove_first_match_only :
    (∀ (s : MList) (val : Int) (threadID : Nat),
      (∀ n ∈ s.chain, n.removed = false) →
      s.chain.Pairwise (fun a b => a.value ≤ b.value) →
      ∃ r s', remove val threadID s = some (r, s') ∧
        (r = true ↔ ∃ n ∈ s.chain, n.value = val) ∧
        (r = true →
          s'.chain = s.chain.takeWhile (fun n => n.value < val) ++
            (s.chain.dropWhile (fun n => n.value < val)).tail) ∧
        (r = false → s'.chain = s.chain)) ∧
    ((runOps mkMarkedList scenarioS1).bind (fun s1 =>
      (remove 5 0 s1).bind (fun p1 =>
        (remove 5 0 p1.2).bind (fun p2 =>
          (remove 5 0 p2.2).map (fun p3 =>
            (p1.1, p1.2.chain.map (fun n => n.value),
              p2.1, p2.2.chain.map (fun n => n.value), p3.1)))))) =
      some (true, [1, 2, 2, 5, 8], true, [1, 2, 2, 8], false) := by
  constructor
  · intro s val t hunrem hsort
    cases hrc : removeChain val s.chain with
    | none =>
        have hnone := (removeChain_none_iff hsort).mp hrc
        refine ⟨false, { s with accessedPointers := resetAccessedPointer t s.accessedPointers },
          by rw [remove_eq hunrem val t, hrc], ?_, ?_, ?_⟩
        · constructor
          · intro hft; cases hft
          · rintro ⟨n, hn, hv⟩; exact absurd hv (hnone n hn)
        · intro hft; cases hft
        · intro _; rfl
    | some pair =>
        obtain ⟨victim, nc⟩ := pair
        obtain ⟨rest, hdw, hval, hnc⟩ := removeChain_some_elim hrc
        refine ⟨true, removeBody victim nc t s,
          by rw [remove_eq hunrem val t, hrc], ?_, ?_, ?_⟩
        · exact iff_of_true rfl ⟨victim, (removeChain_victim_mem hrc).1, hval⟩
        · intro _
          rw [removeBody_chain, hnc, hdw, List.tail_cons]
        · intro hft; cases hft
  · decide

theorem remove_first_match_only_witness :
    ∃ r s', remove 5 0 mkMarkedList = some (r, s') ∧
      (r = true ↔ ∃ n ∈ mkMarkedList.chain, n.value = 5) ∧
      (r = true →
        s'.chain = mkMarkedList.chain.takeWhile (fun n => n.value < 5) ++
          (mkMarkedList.chain.dropWhile (fun n => n.value < 5)).tail) ∧
      (r = false → s'.chain = mkMarkedList.chain) :=
  remove_first_match_only.1 mkMarkedList 5 0 (by decide) List.Pairwise.nil

/-- C3: for every list state and every key, `contains(key, worker_id)`
walks to the first node with key `≥` the argument and returns `true` iff
that node exists, is not marked removed, and carries exactly the key; a
node whose `removed` flag is set is never reported, even before its
physical unlink. -/
theorem contains_first_geq_unremoved :
    ∀ (s : MList) (val : Int) (threadID : Nat),
      (contains val threadID s = true ↔
        ∃ c, (s.chain.dropWhile (fun n => n.value < val)).head? = some c ∧
          c.removed = false ∧ c.value = val) ∧
      (∀ c, (s.chain.dropWhile (fun n => n.value < val)).head? = some c →
        c.removed = true → contains val threadID s = false) := by
  intro s val t
  refine ⟨containsChain_iff val s.chain, ?_⟩
  intro c hc hrem
  cases hb : contains val t s
  · rfl
  · exfalso
    rcases (containsChain_iff val s.chain).mp hb with ⟨c', hc', hr', _⟩
    rw [hc] at hc'
    obtain rfl : c = c' := by injection hc'
    rw [hrem] at hr'
    cases hr'

theorem contains_first_geq_unremoved_witness :
    contains 7 1 deadNodeState = false :=
  (contains_first_geq_unremoved deadNodeState 7 1).2
    { id := 0, value := 7, removed := true } (by decide) (by decide)

/-- C4: after every sequence of inserts and removes on a fresh list whose
inserted keys are legal (strictly above the sentinel's value `-1`),
`checkList` returns `true`: along the chain headed by the sentinel, every
adjacent pair satisfies `prev.value ≤ curr.value`. -/
theorem checkList_true_after_ops :
    ∀ (ops : List Op),
      (∀ v ∈ insVals ops, (-1 : Int) < v) →
      ∃ s, runOps mkMarkedList ops = some s ∧ checkList s = true := by
  intro ops hlegal
  obtain ⟨s, i, d, hrun, hWF, _, horig⟩ := runMaster ops mkMarkedList 0 0 WF_mkMarkedList
  refine ⟨s, by simp only [runOps, hrun, Option.map_some'], ?_⟩
  rw [checkList]
  apply checkListFrom_eq_true s.chain hWF.sorted (-1)
  intro n hn
  rcases horig n hn with ⟨v, t, hmem, hval⟩ | hm
  · rw [hval]
    exact le_of_lt (hlegal v (mem_insVals hmem))
  · exact absurd hm (List.not_mem_nil n)

theorem checkList_true_after_ops_witness :
    ∃ s, runOps mkMarkedList scenarioS1 = some s ∧ checkList s = true :=
  checkList_true_after_ops scenarioS1 (by decide)

/-- C5: after any operation sequence from a fresh list in which `i`
inserts complete and `d` removes return `true`, the number of reachable
non-sentinel nodes is `i - d` and the `length` counter agrees with it. -/
theorem length_conservation :
    ∀ (ops : List Op) (s : MList) (i d : Nat),
      runOpsCounted mkMarkedList 0 0 ops = some (s, i, d) →
      (s.chain.length : Int) = (i : Int) - (d : Int) ∧
      s.length = (i : Int) - (d : Int) := by
  intro ops s i d hrun
  obtain ⟨s', i', d', hrun', hWF, hcnt, _⟩ := runMaster ops mkMarkedList 0 0 WF_mkMarkedList
  rw [hrun] at hrun'
  obtain ⟨rfl, rfl, rfl⟩ : s = s' ∧ i = i' ∧ d = d' := by simpa using hrun'
  have h0 : (s.chain.length : Int) + d - i = 0 := by simpa [mkMarkedList] using hcnt
  constructor
  · omega
  · rw [hWF.lenEq]; omega

theorem length_conservation_witness :
    (s5w.1.chain.length : Int) = ((6 : Nat) : Int) - ((0 : Nat) : Int) ∧
    s5w.1.length = ((6 : Nat) : Int) - ((0 : Nat) : Int) :=
  length_conservation scenarioS1 s5w.1 6 0 (by decide)

/-- C6: in every state reached from a fresh list, every retire-list node
is marked removed and no retire-list node is reachable in the chain;
moreover a successful `remove` places the marked victim in the resulting
retire list unless no hazard slot references it (the only case in which
the same call's reclaim pass may free it). -/
theorem retire_list_invariant :
    (∀ (ops : List Op) (s : MList) (i d : Nat),
      runOpsCounted mkMarkedList 0 0 ops = some (s, i, d) →
      (∀ n ∈ s.retireList, n.removed = true) ∧
      (∀ n ∈ s.retireList, ∀ m ∈ s.chain, n.id ≠ m.id)) ∧
    (∀ (s : MList) (val : Int) (threadID : Nat) (s' : MList),
      remove val threadID s = some (true, s') →
      ∃ n ∈ s.chain, n.value = val ∧
        ({ n with removed := true } ∈ s'.retireList ∨
          isNodeAccessed (resetAccessedPointer threadID s.accessedPointers) n.id = false)) := by
  constructor
  · intro ops s i d hrun
    obtain ⟨s', i', d', hrun', hWF, _, _⟩ := runMaster ops mkMarkedList 0 0 WF_mkMarkedList
    rw [hrun] at hrun'
    obtain ⟨rfl, rfl, rfl⟩ : s = s' ∧ i = i' ∧ d = d' := by simpa using hrun'
    exact ⟨hWF.retireMarked, hWF.disj⟩
  · intro s val t s' hrem
    rw [remove] at hrem
    by_cases hv : seqValidate val s.chain = true
    · rw [if_pos hv] at hrem
      cases hrc : removeChain val s.chain with
      | none =>
          rw [hrc] at hrem
          simp at hrem
      | some pair =>
          obtain ⟨victim, nc⟩ := pair
          rw [hrc] at hrem
          obtain rfl : removeBody victim nc t s = s' := by simpa using hrem
          refine ⟨victim, (removeChain_victim_mem hrc).1, (removeChain_victim_mem hrc).2, ?_⟩
          cases hacc : isNodeAccessed (resetAccessedPointer t s.accessedPointers) victim.id with
          | false => exact Or.inr rfl
          | true =>
              left
              have hmem1 : ({ victim with removed := true } : Node) ∈
                  s.retireList ++ [{ victim with removed := true }] :=
                List.mem_append_right _ (List.mem_singleton_self _)
              simp only [removeBody]
              split
              · exact (mem_scanAndReclaimLoop _ _ _).mpr ⟨hmem1, hacc⟩
              · exact hmem1
    · rw [if_neg hv] at hrem
      cases hrem

theorem retire_list_invariant_witness :
    ((∀ n ∈ s6.retireList, n.removed = true) ∧
      (∀ n ∈ s6.retireList, ∀ m ∈ s6.chain, n.id ≠ m.id)) ∧
    (∃ n ∈ s6.chain, n.value = 2 ∧
      ({ n with removed := true } ∈ s6r.retireList ∨
        isNodeAccessed (resetAccessedPointer 0 s6.accessedPointers) n.id = false)) :=
  ⟨retire_list_invariant.1 ops6 s6 6 2 (by decide),
   retire_list_invariant.2 s6 2 0 s6r (by decide)⟩

/-- C7: `scanAndReclaim` keeps exactly those retire-list nodes that some
hazard slot references (the rest are freed); with every hazard slot null,
one call empties the retire list. -/
theorem scanAndReclaim_frees_unhazarded :
    ∀ (tab : HazardTable) (retire : List Node),
      (∀ n, n ∈ scanAndReclaimLoop tab retire ↔
        n ∈ retire ∧ ∃ row ∈ tab, ∃ slot ∈ row, slot = some n.id) ∧
      ((∀ row ∈ tab, ∀ slot ∈ row, slot = none) → scanAndReclaimLoop tab retire = []) := by
  intro tab retire
  constructor
  · intro n
    rw [mem_scanAndReclaimLoop, isNodeAccessed_iff]
  · intro hnull
    exact scanAndReclaimLoop_nil_of_null tab hnull retire

theorem scanAndReclaim_frees_unhazarded_witness :
    scanAndReclaimLoop mkMarkedList.accessedPointers [{ id := 0, value := 3, removed := true }] = [] :=
  (scanAndReclaim_frees_unhazarded mkMarkedList.accessedPointers
    [{ id := 0, value := 3, removed := true }]).2 (by decide)

/-- C8: in the unlocked traversal of every operation, each non-sentinel
node is published into one of the calling worker's hazard slots before
that node is dereferenced; in `contains` each visited node is published
into hazard slot 0 before the link is followed onward from it. -/
theorem publish_before_deref :
    ∀ (threadID : Nat) (val : Int) (chain : List Node),
      hazardOk threadID false [] (insertTrace threadID val chain) = true ∧
      hazardOk threadID false [] (removeTrace threadID val chain) = true ∧
      hazardOk threadID true [] (containsTrace threadID val chain) = true := by
  intro t val chain
  refine ⟨?_, ?_, ?_⟩
  · cases chain with
    | nil => rfl
    | cons n rest =>
        simp only [insertTrace, List.head?_cons, Option.map_some', hazardOk,
          beq_self_eq_true, Bool.not_false, Bool.true_or, Bool.and_self, if_true]
        exact hazardOk_traverseTraceGo t val (n :: rest) [n.id]
          (by intro x hx; cases hx; simp)
  · cases chain with
    | nil => rfl
    | cons n rest =>
        simp only [removeTrace, List.head?_cons, Option.map_some', hazardOk,
          beq_self_eq_true, Bool.not_false, Bool.true_or, Bool.and_self, if_true]
        exact hazardOk_traverseTraceGo t val (n :: rest) [n.id]
          (by intro x hx; cases hx; simp)
  · cases chain with
    | nil => rfl
    | cons n rest =>
        simp only [containsTrace, List.head?_cons, Option.map_some', hazardOk,
          beq_self_eq_true, Bool.not_true, Bool.false_or, Bool.and_self, if_true]
        exact hazardOk_containsTraceGo t val (n :: rest) [n.id]
          (by intro x hx; cases hx; simp)

/-- C10: in every sequential execution from a fresh list the
`operationCounter` is non-negative after each completed operation; in
particular whenever the reclaim trigger fires, subtracting the observed
`length` leaves the counter `≥ 0`. -/
theorem operationCounter_nonneg :
    (∀ (ops : List Op) (s : MList) (i d : Nat),
      runOpsCounted mkMarkedList 0 0 ops = some (s, i, d) →
      0 ≤ s.operationCounter) ∧
    (∀ (s : MList) (val : Int) (threadID : Nat),
      s.operationCounter + 1 ≥ s.length + 1 →
      0 ≤ (insertBody val threadID s).operationCounter) ∧
    (∀ (s : MList) (victim : Node) (nc : List Node) (threadID : Nat),
      s.operationCounter + 1 ≥ s.length - 1 →
      0 ≤ (removeBody victim nc threadID s).operationCounter) := by
  refine ⟨?_, ?_, ?_⟩
  · intro ops s i d hrun
    obtain ⟨s', i', d', hrun', hWF, _, _⟩ := runMaster ops mkMarkedList 0 0 WF_mkMarkedList
    rw [hrun] at hrun'
    obtain ⟨rfl, rfl, rfl⟩ : s = s' ∧ i = i' ∧ d = d' := by simpa using hrun'
    exact hWF.opcNonneg
  · intro s val t h
    simp only [insertBody, if_pos h]
    omega
  · intro s victim nc t h
    simp only [removeBody, if_pos h]
    omega

theorem operationCounter_nonneg_witness :
    0 ≤ s5w.1.operationCounter ∧ 0 ≤ (insertBody 4 0 mkMarkedList).operationCounter :=
  ⟨operationCounter_nonneg.1 scenarioS1 s5w.1 6 0 (by decide),
   operationCounter_nonneg.2.1 mkMarkedList 4 0 (by decide)⟩

end MarkedList
